import Mathlib

/-!
# Verification of the Monte Carlo portfolio engine (`utils.py`)

Shallow embedding of the two core routines of the repository:

* `calculate_log_returns`  — `np.log(prices / prices.shift(1)).dropna()`
* `perform_monte_carlo_simulation` — annualized statistics, random
  long-only weights normalized by row sum, vectorized portfolio
  return / risk / Sharpe evaluation, and arg-max-Sharpe selection
  via `DataFrame.idxmax` + `.loc`.

Numbers are modelled by exact rationals (inputs) and reals (values of
`log` / `sqrt`).  IEEE-754 special values matter to the claims (zero
prices produce infinities, `dropna` removes only NaN rows, zero-risk
portfolios produce infinite Sharpe ratios that `idxmax` can select),
so every computed scalar lives in `FloatV α`: a float idealized as an
exact number of type `α` plus the three special values NaN, +∞, −∞.
-/

namespace PortfolioOpt

/-- An IEEE-754 floating point value idealized over an exact carrier
`α` (`ℚ` for field arithmetic on rational inputs, `ℝ` once `log` or
`sqrt` has been applied): either NaN, a signed infinity
(`inf true` = +∞, `inf false` = −∞), or a finite value. -/
inductive FloatV (α : Type) : Type where
  | nan : FloatV α
  | inf : Bool → FloatV α
  | fin : α → FloatV α
deriving DecidableEq

/-- `true` exactly on NaN. -/
def FloatV.isNan {α : Type} : FloatV α → Bool
  | .nan => true
  | _ => false

/-- `true` exactly on finite values. -/
def FloatV.isFin {α : Type} : FloatV α → Bool
  | .fin _ => true
  | _ => false

/-- Float division of a price by the shifted (previous-row) price, as
in `stock_prices / stock_prices.shift(1)`.  The shifted value is
`none` on the first row (pandas `shift` fills with NaN); division of a
finite `x` by `0.0` gives a signed infinity for `x ≠ 0` and NaN for
`0/0`. -/
def fdivShift (x : ℚ) (y : Option ℚ) : FloatV ℚ :=
  match y with
  | none => .nan
  | some y => if y = 0 then (if x = 0 then .nan else .inf (decide (0 < x))) else .fin (x / y)

/-- `np.log` on a float: `log` of a negative number is NaN, `log 0` is
−∞, `log (+∞) = +∞`, `log (−∞)` and `log NaN` are NaN; on a positive
finite rational it is the exact real logarithm. -/
noncomputable def flogF : FloatV ℚ → FloatV ℝ
  | .nan => .nan
  | .inf true => .inf true
  | .inf false => .nan
  | .fin q => if q < 0 then .nan else if q = 0 then .inf false else .fin (Real.log (q : ℝ))

/-- A row of the log-return table contains a NaN entry (the condition
`dropna` filters rows by). -/
def hasNanRow {k : ℕ} (row : Fin k → FloatV ℝ) : Bool :=
  decide (∃ a : Fin k, (row a).isNan = true)

/-- Embedding of `calculate_log_returns` (`utils.py` lines 36–47):
`np.log(stock_prices / stock_prices.shift(1)).dropna()`.  The input is
an `n × k` price table (dates × assets); the output is the list of
surviving rows, each a function from asset index to log-return value.
Row `t` divides prices at `t` by prices at `t − 1` (NaN on row 0), takes
`np.log` entrywise, and `dropna` keeps exactly the rows with no NaN
entry (infinities are not NaN and are kept). -/
noncomputable def calculate_log_returns {n k : ℕ} (p : Matrix (Fin n) (Fin k) ℚ) :
    List (Fin k → FloatV ℝ) :=
  ((List.finRange n).map fun t => fun a =>
    flogF (fdivShift (p t a)
      (if h : 0 < (t : ℕ) then some (p ⟨(t : ℕ) - 1, by omega⟩ a) else none))).filter
    fun row => !(hasNanRow row)

/-! ## Statistics estimation (`utils.py` lines 61–65)

`mean_returns = log_returns.mean() * 252` and
`cov_matrix = log_returns.cov() * 252`.  Pandas `mean` is the column
sum over the row count; pandas `cov` is the sample covariance with
`ddof = 1` (centred cross products over `n − 1`), and its entries are
NaN when fewer than 2 rows are available. -/

/-- Per-period (per-row) column mean, `log_returns.mean()`. -/
def log_mean {n k : ℕ} (R : Matrix (Fin n) (Fin k) ℚ) (a : Fin k) : ℚ :=
  (∑ t, R t a) / (n : ℚ)

/-- Per-period sample covariance of two columns, `log_returns.cov()`
with pandas' `ddof = 1`.  Only meaningful for `n ≥ 2`; the pipeline
guards that case through `cov_matrix`. -/
def log_cov {n k : ℕ} (R : Matrix (Fin n) (Fin k) ℚ) (a b : Fin k) : ℚ :=
  (∑ t, (R t a - log_mean R a) * (R t b - log_mean R b)) / ((n : ℚ) - 1)

/-- Annualized mean vector: `log_returns.mean() * 252`. -/
def mean_returns {n k : ℕ} (R : Matrix (Fin n) (Fin k) ℚ) (a : Fin k) : ℚ :=
  log_mean R a * 252

/-- Annualized covariance matrix entry: `log_returns.cov() * 252`.
With fewer than 2 rows pandas' sample covariance (`ddof = 1`) is NaN. -/
def cov_matrix {n k : ℕ} (R : Matrix (Fin n) (Fin k) ℚ) (a b : Fin k) : FloatV ℚ :=
  if n < 2 then .nan else .fin (log_cov R a b * 252)

/-! ## Weight sampling and portfolio evaluation (`utils.py` lines 67–90) -/

/-- Normalized weight ensemble (`utils.py` line 72):
`all_weights = all_weights / np.sum(all_weights, axis=1)[:, np.newaxis]`.
The raw matrix `W` models the `np.random.random((N, k))` draw; each row
is divided by its row sum. -/
def all_weights {N k : ℕ} (W : Matrix (Fin N) (Fin k) ℚ) (i : Fin N) (a : Fin k) : ℚ :=
  W i a / ∑ b, W i b

/-- Portfolio return of one weight row (`utils.py` line 76):
`np.sum(all_weights * mean_returns.values, axis=1)`, i.e. the dot
product of the weights with the annualized mean vector. -/
def port_return {n k : ℕ} (R : Matrix (Fin n) (Fin k) ℚ) (w : Fin k → ℚ) : ℚ :=
  ∑ a, w a * mean_returns R a

/-- Portfolio variance of one weight row (`utils.py` line 84):
`np.dot(w.T, np.dot(cov_matrix, w))`, the quadratic form of the
annualized covariance matrix.  Written with the finite entry
`log_cov · * 252` of `cov_matrix`; the `n < 2` NaN case is guarded at
the record level (a quadratic form over an all-NaN matrix is NaN). -/
def port_variance {n k : ℕ} (R : Matrix (Fin n) (Fin k) ℚ) (w : Fin k → ℚ) : ℚ :=
  ∑ a, w a * ∑ b, (log_cov R a b * 252) * w b

/-- Float subtraction of the (finite) risk-free rate from a float
return: `port_returns - risk_free_rate`. -/
def fsubQ (x : FloatV ℚ) (r : ℚ) : FloatV ℚ :=
  match x with
  | .nan => .nan
  | .inf s => .inf s
  | .fin q => .fin (q - r)

/-- `np.sqrt` on a float (`utils.py` line 85): NaN on NaN and −∞,
+∞ on +∞, NaN on negative finite arguments, and the exact real square
root on nonnegative finite arguments. -/
noncomputable def fsqrtF : FloatV ℚ → FloatV ℝ
  | .nan => .nan
  | .inf true => .inf true
  | .inf false => .nan
  | .fin q => if q < 0 then .nan else .fin (Real.sqrt (q : ℝ))

/-- Float division of the excess return by `sqrt` of the variance
(`utils.py` line 90, with `port_risks` from line 85): IEEE semantics
of `num / sqrt v`.  A finite numerator over risk `0.0` is a signed
infinity (NaN for `0/0`); over `+∞` it is `0.0`; `sqrt` of a negative
or `−∞` variance is NaN and poisons the quotient.  All case decisions
are on the rational variance, so they agree with `fsqrtF`. -/
noncomputable def sharpeDiv (num : FloatV ℚ) (varF : FloatV ℚ) : FloatV ℝ :=
  match num, varF with
  | .nan, _ => .nan
  | _, .nan => .nan
  | .inf _, .inf true => .nan
  | .inf _, .inf false => .nan
  | .inf s, .fin v => if v < 0 then .nan else .inf s
  | .fin _, .inf true => .fin 0
  | .fin _, .inf false => .nan
  | .fin q, .fin v =>
      if v < 0 then .nan
      else if v = 0 then (if q = 0 then .nan else .inf (decide (0 < q)))
      else .fin ((q : ℝ) / Real.sqrt (v : ℝ))

/-- One row of `results_df` (`utils.py` lines 93–103): the weight
vector together with its `Return`, `Risk` and `Sharpe Ratio` columns. -/
structure SimRecord (k : ℕ) where
  weights : Fin k → ℚ
  ret : FloatV ℚ
  risk : FloatV ℝ
  sharpe : FloatV ℝ

/-- Evaluation of one weight row (`utils.py` lines 74–90).  The mean
of an empty table is NaN (so is the return), and the sample covariance
of fewer than 2 rows is NaN (so are the variance, the risk and the
Sharpe ratio); otherwise the columns are the exact formulas of the
source. -/
noncomputable def evalRecordAt {n k : ℕ} (R : Matrix (Fin n) (Fin k) ℚ) (rf : ℚ)
    (w : Fin k → ℚ) : SimRecord k :=
  let retF : FloatV ℚ := if n = 0 then .nan else .fin (port_return R w)
  let varF : FloatV ℚ := if n < 2 then .nan else .fin (port_variance R w)
  ⟨w, retF, fsqrtF varF, sharpeDiv (fsubQ retF rf) varF⟩

/-! ## Optimal selection (`utils.py` lines 105–108) -/

/-- Strict `<` on non-NaN float values, as NumPy compares them inside
`idxmax`: −∞ below every finite value, every finite value below +∞,
finite values by the real order.  Comparisons against NaN are `false`
(`idxmax` skips NaN separately). -/
noncomputable def fvLt : FloatV ℝ → FloatV ℝ → Bool
  | .nan, _ => false
  | _, .nan => false
  | .inf s, .inf t => !s && t
  | .inf s, .fin _ => !s
  | .fin _, .inf t => t
  | .fin x, .fin y => decide (x < y)

/-- `Series.idxmax` (`utils.py` line 106): position and value of the
maximum of a float series, skipping NaN entries, returning the first
(lowest) position among ties; `none` when no non-NaN entry exists. -/
noncomputable def idxmaxA : List (FloatV ℝ) → Option (ℕ × FloatV ℝ)
  | [] => none
  | v :: rest =>
    match idxmaxA rest with
    | none => if v.isNan then none else some (0, v)
    | some (j, b) =>
      if v.isNan then some (j + 1, b)
      else if fvLt v b then some (j + 1, b)
      else some (0, v)

/-- Embedding of `perform_monte_carlo_simulation` (`utils.py` lines
49–108).  Inputs: the log-return table `R`, the raw
`np.random.random((N, k))` draw `W` (the function's only source of
randomness, passed explicitly), and the risk-free rate `rf` (the
Python parameter defaults to `0.0`).  Output: the `N` evaluated
records (`results_df`) and the record at the arg-max-Sharpe position
(`results_df.loc[results_df['Sharpe Ratio'].idxmax()]`), `none` when
`idxmax` finds no non-NaN Sharpe ratio. -/
noncomputable def perform_monte_carlo_simulation {n k N : ℕ}
    (R : Matrix (Fin n) (Fin k) ℚ) (W : Matrix (Fin N) (Fin k) ℚ) (rf : ℚ) :
    List (SimRecord k) × Option (SimRecord k) :=
  let recs := (List.finRange N).map fun i => evalRecordAt R rf (all_weights W i)
  (recs, (idxmaxA (recs.map SimRecord.sharpe)).bind fun jb => recs[jb.1]?)

/-! ## Order facts about non-NaN float values -/

/-- A finite float value is not NaN. -/
lemma FloatV.isNan_eq_false_of_isFin {α : Type} {a : FloatV α} (h : a.isFin = true) :
    a.isNan = false := by
  cases a <;> simp_all [FloatV.isFin, FloatV.isNan]

/-- `fvLt` is irreflexive. -/
lemma fvLt_irrefl (a : FloatV ℝ) : fvLt a a = false := by
  rcases a with _ | s | x <;> simp [fvLt]

/-- `fvLt` is asymmetric. -/
lemma fvLt_asymm {a b : FloatV ℝ} (h : fvLt a b = true) : fvLt b a = false := by
  rcases a with _ | s | x <;> rcases b with _ | t | y <;> simp_all [fvLt] <;> linarith

/-- On non-NaN values, "not less than" is transitive (it is the `≥`
of the linear order used by `idxmax`). -/
lemma fvLt_ge_trans {a b c : FloatV ℝ} (ha : a.isNan = false) (hb : b.isNan = false)
    (hc : c.isNan = false) (hab : fvLt a b = false) (hbc : fvLt b c = false) :
    fvLt a c = false := by
  rcases a with _ | s | x <;> rcases b with _ | t | y <;> rcases c with _ | u | z <;>
    simp_all [fvLt, FloatV.isNan] <;> linarith

/-! ## Specification of `idxmaxA` -/

/-- Unfolding equation for `idxmaxA` on a nonempty list. -/
lemma idxmaxA_cons (v : FloatV ℝ) (rest : List (FloatV ℝ)) :
    idxmaxA (v :: rest) =
      match idxmaxA rest with
      | none => if v.isNan then none else some (0, v)
      | some (j, b) =>
        if v.isNan then some (j + 1, b)
        else if fvLt v b then some (j + 1, b)
        else some (0, v) := rfl

/-- Full functional specification of `idxmaxA`: it returns `none` only
when every entry is NaN, and otherwise the position and value of a
non-NaN entry that no non-NaN entry exceeds, with no earlier entry
equal to it (first-occurrence tie-break). -/
lemma idxmaxA_spec (l : List (FloatV ℝ)) :
    (idxmaxA l = none → ∀ v ∈ l, v.isNan = true) ∧
    (∀ j b, idxmaxA l = some (j, b) →
      l[j]? = some b ∧ b.isNan = false ∧
      (∀ v ∈ l, v.isNan = false → fvLt b v = false) ∧
      (∀ m, m < j → ∀ v, l[m]? = some v → v ≠ b)) := by
  induction l with
  | nil =>
    refine ⟨fun _ v hv => absurd hv (List.not_mem_nil v), fun j b h => ?_⟩
    simp [idxmaxA] at h
  | cons v rest ih =>
    cases hrec : idxmaxA rest with
    | none =>
      have hall : ∀ u ∈ rest, u.isNan = true := ih.1 hrec
      have hcons : idxmaxA (v :: rest) = if v.isNan then none else some (0, v) := by
        rw [idxmaxA_cons, hrec]
      by_cases hv : v.isNan = true
      · rw [hcons, if_pos hv]
        constructor
        · intro _ u hu
          rcases List.mem_cons.mp hu with rfl | hu
          · exact hv
          · exact hall u hu
        · intro j b h
          exact Option.noConfusion h
      · rw [hcons, if_neg hv]
        constructor
        · intro h
          exact Option.noConfusion h
        · intro j b h
          simp only [Option.some.injEq, Prod.mk.injEq] at h
          obtain ⟨rfl, rfl⟩ := h
          refine ⟨by simp, Bool.not_eq_true _ ▸ hv, ?_, ?_⟩
          · intro u hu hnn
            rcases List.mem_cons.mp hu with rfl | hu
            · exact fvLt_irrefl u
            · exact absurd (hall u hu) (by simp [hnn])
          · intro m hm u h
            exact absurd hm (Nat.not_lt_zero m)
    | some jb =>
      obtain ⟨j', b'⟩ := jb
      obtain ⟨hget', hnn', hmax', hfirst'⟩ := ih.2 j' b' hrec
      have hcons : idxmaxA (v :: rest) =
          if v.isNan then some (j' + 1, b')
          else if fvLt v b' then some (j' + 1, b') else some (0, v) := by
        rw [idxmaxA_cons, hrec]
      by_cases hv : v.isNan = true
      · rw [hcons, if_pos hv]
        constructor
        · intro h
          exact Option.noConfusion h
        · intro j b h
          simp only [Option.some.injEq, Prod.mk.injEq] at h
          obtain ⟨rfl, rfl⟩ := h
          refine ⟨by simpa using hget', hnn', ?_, ?_⟩
          · intro u hu hnn
            rcases List.mem_cons.mp hu with rfl | hu
            · exact absurd hv (by simp [hnn])
            · exact hmax' u hu hnn
          · intro m hm u hu
            cases m with
            | zero =>
              obtain rfl : v = u := by simpa using hu
              intro hEq
              rw [hEq] at hv
              simp [hnn'] at hv
            | succ m' =>
              exact hfirst' m' (Nat.succ_lt_succ_iff.mp hm) u (by simpa using hu)
      · by_cases hlt : fvLt v b' = true
        · rw [hcons, if_neg hv, if_pos hlt]
          constructor
          · intro h
            exact Option.noConfusion h
          · intro j b h
            simp only [Option.some.injEq, Prod.mk.injEq] at h
            obtain ⟨rfl, rfl⟩ := h
            refine ⟨by simpa using hget', hnn', ?_, ?_⟩
            · intro u hu hnn
              rcases List.mem_cons.mp hu with rfl | hu
              · exact fvLt_asymm hlt
              · exact hmax' u hu hnn
            · intro m hm u hu
              cases m with
              | zero =>
                obtain rfl : v = u := by simpa using hu
                intro hEq
                rw [hEq] at hlt
                rw [fvLt_irrefl b'] at hlt
                exact absurd hlt (by simp)
              | succ m' =>
                exact hfirst' m' (Nat.succ_lt_succ_iff.mp hm) u (by simpa using hu)
        · rw [hcons, if_neg hv, if_neg hlt]
          constructor
          · intro h
            exact Option.noConfusion h
          · intro j b h
            simp only [Option.some.injEq, Prod.mk.injEq] at h
            obtain ⟨rfl, rfl⟩ := h
            have hvnn : v.isNan = false := Bool.not_eq_true _ ▸ hv
            refine ⟨by simp, hvnn, ?_, ?_⟩
            · intro u hu hnn
              rcases List.mem_cons.mp hu with rfl | hu
              · exact fvLt_irrefl u
              · exact fvLt_ge_trans hvnn hnn' hnn
                  (Bool.not_eq_true _ ▸ hlt) (hmax' u hu hnn)
            · intro m hm u h
              exact absurd hm (Nat.not_lt_zero m)

/-- The record list of the simulation is the evaluation of every
normalized weight row, in ensemble order. -/
lemma pmcs_fst {n k N : ℕ} (R : Matrix (Fin n) (Fin k) ℚ) (W : Matrix (Fin N) (Fin k) ℚ)
    (rf : ℚ) :
    (perform_monte_carlo_simulation R W rf).1 =
      (List.finRange N).map fun i => evalRecordAt R rf (all_weights W i) := rfl

/-- The optimum of the simulation is the record sitting at the
`idxmax` position of the Sharpe column. -/
lemma pmcs_snd {n k N : ℕ} (R : Matrix (Fin n) (Fin k) ℚ) (W : Matrix (Fin N) (Fin k) ℚ)
    (rf : ℚ) :
    (perform_monte_carlo_simulation R W rf).2 =
      (idxmaxA ((perform_monte_carlo_simulation R W rf).1.map SimRecord.sharpe)).bind
        fun jb => ((perform_monte_carlo_simulation R W rf).1)[jb.1]? := rfl

/-- C1.  For every ensemble of evaluated records with at least one
valid (finite-Sharpe) record, the selection step returns the record at
some position `j` whose Sharpe ratio is not exceeded by any valid
record of the ensemble, and no record before position `j` attains the
selected Sharpe value (first-index tie-break). -/
theorem optimal_selection_max_sharpe {n k N : ℕ} (R : Matrix (Fin n) (Fin k) ℚ)
    (W : Matrix (Fin N) (Fin k) ℚ) (rf : ℚ)
    (hvalid : ((perform_monte_carlo_simulation R W rf).1.any
      fun r => r.sharpe.isFin) = true) :
    ∃ (j : ℕ) (ropt : SimRecord k),
      (perform_monte_carlo_simulation R W rf).2 = some ropt ∧
      ((perform_monte_carlo_simulation R W rf).1)[j]? = some ropt ∧
      (∀ r ∈ (perform_monte_carlo_simulation R W rf).1, r.sharpe.isFin = true →
        fvLt ropt.sharpe r.sharpe = false) ∧
      (∀ m, m < j → ∀ r', ((perform_monte_carlo_simulation R W rf).1)[m]? = some r' →
        r'.sharpe ≠ ropt.sharpe) := by
  obtain ⟨r0, hr0mem, hr0fin⟩ := List.any_eq_true.mp hvalid
  cases hidx : idxmaxA ((perform_monte_carlo_simulation R W rf).1.map SimRecord.sharpe) with
  | none =>
    have hnan := (idxmaxA_spec _).1 hidx r0.sharpe
      (List.mem_map_of_mem SimRecord.sharpe hr0mem)
    rw [FloatV.isNan_eq_false_of_isFin hr0fin] at hnan
    exact absurd hnan (by simp)
  | some jb =>
    obtain ⟨j, b⟩ := jb
    obtain ⟨hget, hnn, hmax, hfirst⟩ := (idxmaxA_spec _).2 j b hidx
    rw [List.getElem?_map] at hget
    cases hro : ((perform_monte_carlo_simulation R W rf).1)[j]? with
    | none =>
      rw [hro] at hget
      exact absurd hget (by simp)
    | some ropt =>
      rw [hro] at hget
      have hbs : ropt.sharpe = b := by simpa using hget
      refine ⟨j, ropt, ?_, hro, ?_, ?_⟩
      · rw [pmcs_snd, hidx]
        simpa using hro
      · intro r hrmem hrfin
        rw [hbs]
        exact hmax r.sharpe (List.mem_map_of_mem SimRecord.sharpe hrmem)
          (FloatV.isNan_eq_false_of_isFin hrfin)
      · intro m hm r' hr'
        have hms : ((perform_monte_carlo_simulation R W rf).1.map SimRecord.sharpe)[m]? =
            some r'.sharpe := by
          rw [List.getElem?_map, hr']
          rfl
        rw [hbs]
        exact hfirst m hm r'.sharpe hms

/-- A concrete 2-date, 2-asset log-return table whose first column is
nonconstant (so every portfolio mixing it has positive variance). -/
def Rtest : Matrix (Fin 2) (Fin 2) ℚ := !![0, 0; 1/10, 0]

/-- A concrete single-row raw weight draw. -/
def Wtest : Matrix (Fin 1) (Fin 2) ℚ := !![1, 1]

/-- The single record list produced at the concrete test input. -/
lemma Rtest_recs : (perform_monte_carlo_simulation Rtest Wtest 0).1 =
    [evalRecordAt Rtest 0 (all_weights Wtest 0)] := by
  rw [pmcs_fst]
  simp [List.finRange_succ]

/-- The normalized weights of the single test row. -/
lemma Rtest_weights : all_weights Wtest 0 = ![1/2, 1/2] := by
  funext a
  fin_cases a <;> simp [all_weights, Wtest, Fin.sum_univ_two] <;> norm_num

/-- The annualized portfolio variance at the test input. -/
lemma Rtest_variance : port_variance Rtest ![1/2, 1/2] = 63/200 := by
  simp [port_variance, log_cov, log_mean, Rtest, Fin.sum_univ_two]
  norm_num

/-- The annualized portfolio return at the test input. -/
lemma Rtest_return : port_return Rtest ![1/2, 1/2] = 63/10 := by
  simp [port_return, mean_returns, log_mean, Rtest, Fin.sum_univ_two]
  norm_num

/-- The single test record has a finite Sharpe ratio. -/
lemma Rtest_sharpe_isFin :
    (evalRecordAt Rtest 0 (all_weights Wtest 0)).sharpe.isFin = true := by
  simp only [evalRecordAt, Rtest_weights]
  rw [Rtest_variance, Rtest_return]
  norm_num [sharpeDiv, fsubQ, FloatV.isFin]

/-- Witness for C1: the hypothesis and conclusion of
`optimal_selection_max_sharpe` hold at a concrete ensemble. -/
theorem optimal_selection_max_sharpe_witness :
    ((perform_monte_carlo_simulation Rtest Wtest 0).1.any
      fun r => r.sharpe.isFin) = true ∧
    (∃ (j : ℕ) (ropt : SimRecord 2),
      (perform_monte_carlo_simulation Rtest Wtest 0).2 = some ropt ∧
      ((perform_monte_carlo_simulation Rtest Wtest 0).1)[j]? = some ropt ∧
      (∀ r ∈ (perform_monte_carlo_simulation Rtest Wtest 0).1, r.sharpe.isFin = true →
        fvLt ropt.sharpe r.sharpe = false) ∧
      (∀ m, m < j → ∀ r', ((perform_monte_carlo_simulation Rtest Wtest 0).1)[m]? = some r' →
        r'.sharpe ≠ ropt.sharpe)) :=
  ⟨by simp [Rtest_recs, Rtest_sharpe_isFin],
   optimal_selection_max_sharpe Rtest Wtest 0 (by simp [Rtest_recs, Rtest_sharpe_isFin])⟩

/-! ## Positive semidefiniteness of the sample covariance (C10, C3) -/

/-- Triple-sum rearrangement: the quadratic form of the centred
cross-product matrix is a sum of squares over time. -/
lemma quad_as_sq {n k : ℕ} (c : Matrix (Fin n) (Fin k) ℚ) (w : Fin k → ℚ) :
    ∑ a, w a * ∑ b, (∑ t, c t a * c t b) * w b
      = ∑ t, (∑ a, w a * c t a) ^ 2 := by
  calc ∑ a, w a * ∑ b, (∑ t, c t a * c t b) * w b
      = ∑ a, ∑ b, ∑ t, (w a * c t a) * (w b * c t b) := by
        refine Finset.sum_congr rfl fun a _ => ?_
        rw [Finset.mul_sum]
        refine Finset.sum_congr rfl fun b _ => ?_
        rw [Finset.sum_mul, Finset.mul_sum]
        refine Finset.sum_congr rfl fun t _ => ?_
        ring
    _ = ∑ a, ∑ t, ∑ b, (w a * c t a) * (w b * c t b) :=
        Finset.sum_congr rfl fun a _ => Finset.sum_comm
    _ = ∑ t, ∑ a, ∑ b, (w a * c t a) * (w b * c t b) := Finset.sum_comm
    _ = ∑ t, (∑ a, w a * c t a) * (∑ b, w b * c t b) :=
        Finset.sum_congr rfl fun t _ => (Fintype.sum_mul_sum _ _).symm
    _ = ∑ t, (∑ a, w a * c t a) ^ 2 :=
        Finset.sum_congr rfl fun t _ => (sq (∑ a, w a * c t a)).symm ▸ rfl

/-- The portfolio variance is the annualization factor over `n − 1`
times a sum of squares of centred portfolio returns. -/
lemma port_variance_eq_sum_sq {n k : ℕ} (R : Matrix (Fin n) (Fin k) ℚ) (w : Fin k → ℚ) :
    port_variance R w =
      (252 / ((n : ℚ) - 1)) * ∑ t, (∑ a, w a * (R t a - log_mean R a)) ^ 2 := by
  rw [← quad_as_sq (fun t a => R t a - log_mean R a) w]
  unfold port_variance log_cov
  simp only [Finset.mul_sum]
  refine Finset.sum_congr rfl fun a _ => Finset.sum_congr rfl fun b _ => ?_
  ring

/-- The quadratic form of the (annualized) sample covariance matrix is
nonnegative for every weight vector, provided `n ≥ 2`. -/
lemma port_variance_nonneg {n k : ℕ} (R : Matrix (Fin n) (Fin k) ℚ) (w : Fin k → ℚ)
    (h2 : 2 ≤ n) : 0 ≤ port_variance R w := by
  rw [port_variance_eq_sum_sq]
  apply mul_nonneg
  · apply div_nonneg (by norm_num)
    have hn : (2 : ℚ) ≤ (n : ℚ) := by exact_mod_cast h2
    linarith
  · exact Finset.sum_nonneg fun t _ => sq_nonneg _


/-- C10.  For every log-return table with at least 2 rows, the
quadratic form `w^T Σ w` the engine computes (with the annualized
sample covariance matrix) is nonnegative for every weight vector, and
consequently the `sqrt` in the risk computation never produces a NaN
risk value for any record of any simulation over that table. -/
theorem quadratic_form_nonneg {n k N : ℕ} (R : Matrix (Fin n) (Fin k) ℚ) (h2 : 2 ≤ n) :
    (∀ w : Fin k → ℚ, 0 ≤ port_variance R w) ∧
    (∀ (W : Matrix (Fin N) (Fin k) ℚ) (rf : ℚ),
      ∀ r ∈ (perform_monte_carlo_simulation R W rf).1, r.risk.isNan = false) := by
  refine ⟨fun w => port_variance_nonneg R w h2, fun W rf r hr => ?_⟩
  rw [pmcs_fst] at hr
  obtain ⟨i, _, rfl⟩ := List.mem_map.mp hr
  have hlt : ¬ n < 2 := by omega
  have hpv : 0 ≤ port_variance R (all_weights W i) :=
    port_variance_nonneg R (all_weights W i) h2
  simp [evalRecordAt, fsqrtF, if_neg hlt, not_lt.mpr hpv, FloatV.isNan]

/-- Witness for C10 at the concrete test table. -/
theorem quadratic_form_nonneg_witness :
    2 ≤ 2 ∧
    ((∀ w : Fin 2 → ℚ, 0 ≤ port_variance Rtest w) ∧
     (∀ (W : Matrix (Fin 1) (Fin 2) ℚ) (rf : ℚ),
       ∀ r ∈ (perform_monte_carlo_simulation Rtest W rf).1, r.risk.isNan = false)) :=
  ⟨le_refl 2, quadratic_form_nonneg Rtest (le_refl 2)⟩

/-- C3.  Every record of an evaluated ensemble (over a table with at
least 2 rows) carries exactly the source formulas: its return is the
dot product of its weights with the annualized mean vector, its risk
is the square root of the quadratic form of the annualized covariance
matrix, and — whenever that quadratic form is nonzero — its Sharpe
ratio is the excess return over the risk-free rate `rf` (the Python
parameter defaults to `0.0`) divided by the risk. -/
theorem evaluator_record_formulas {n k N : ℕ} (R : Matrix (Fin n) (Fin k) ℚ)
    (W : Matrix (Fin N) (Fin k) ℚ) (rf : ℚ) (h2 : 2 ≤ n)
    (r : SimRecord k) (hr : r ∈ (perform_monte_carlo_simulation R W rf).1) :
    r.ret = .fin (port_return R r.weights) ∧
    r.risk = .fin (Real.sqrt ((port_variance R r.weights : ℚ) : ℝ)) ∧
    (port_variance R r.weights ≠ 0 →
      r.sharpe = .fin (((port_return R r.weights - rf : ℚ) : ℝ) /
        Real.sqrt ((port_variance R r.weights : ℚ) : ℝ))) := by
  rw [pmcs_fst] at hr
  obtain ⟨i, _, rfl⟩ := List.mem_map.mp hr
  have hn0 : ¬ n = 0 := by omega
  have hlt : ¬ n < 2 := by omega
  have hpv : 0 ≤ port_variance R (all_weights W i) :=
    port_variance_nonneg R (all_weights W i) h2
  refine ⟨by simp [evalRecordAt, if_neg hn0], ?_, ?_⟩
  · simp [evalRecordAt, if_neg hlt, fsqrtF, not_lt.mpr hpv]
  · intro hne
    have hwe : (evalRecordAt R rf (all_weights W i)).weights = all_weights W i := rfl
    rw [hwe] at hne
    simp [evalRecordAt, if_neg hn0, if_neg hlt, fsubQ, sharpeDiv, not_lt.mpr hpv, hne]

/-- Witness for C3 at the concrete test ensemble. -/
theorem evaluator_record_formulas_witness :
    (2 ≤ 2 ∧ evalRecordAt Rtest 0 (all_weights Wtest 0) ∈
      (perform_monte_carlo_simulation Rtest Wtest 0).1) ∧
    ((evalRecordAt Rtest 0 (all_weights Wtest 0)).ret =
      .fin (port_return Rtest (evalRecordAt Rtest 0 (all_weights Wtest 0)).weights) ∧
     (evalRecordAt Rtest 0 (all_weights Wtest 0)).risk =
      .fin (Real.sqrt ((port_variance Rtest
        (evalRecordAt Rtest 0 (all_weights Wtest 0)).weights : ℚ) : ℝ)) ∧
     (port_variance Rtest (evalRecordAt Rtest 0 (all_weights Wtest 0)).weights ≠ 0 →
      (evalRecordAt Rtest 0 (all_weights Wtest 0)).sharpe =
        .fin (((port_return Rtest (evalRecordAt Rtest 0 (all_weights Wtest 0)).weights
            - 0 : ℚ) : ℝ) /
          Real.sqrt ((port_variance Rtest
            (evalRecordAt Rtest 0 (all_weights Wtest 0)).weights : ℚ) : ℝ)))) :=
  ⟨⟨le_refl 2, by simp [Rtest_recs]⟩,
   evaluator_record_formulas Rtest Wtest 0 (le_refl 2) _ (by simp [Rtest_recs])⟩


/-- C2.  Every row of the weight ensemble generated by normalizing a
raw uniform(0,1) draw (entries strictly between 0 and 1, the support
of `np.random.random`) is entrywise nonnegative and sums to 1, in
particular to within a tolerance of `1e-9`.  Each row is, by
construction (`all_weights`), the raw row divided by its row sum. -/
theorem weight_ensemble_simplex {N k : ℕ} (W : Matrix (Fin N) (Fin k) ℚ) (hk : 2 ≤ k)
    (hW : ∀ i a, 0 < W i a ∧ W i a < 1) (i : Fin N) :
    (∀ a, 0 ≤ all_weights W i a) ∧
    |(∑ a, all_weights W i a) - 1| ≤ 1 / 1000000000 := by
  have hne : (Finset.univ : Finset (Fin k)).Nonempty :=
    ⟨⟨0, by omega⟩, Finset.mem_univ _⟩
  have hpos : 0 < ∑ b, W i b := Finset.sum_pos (fun b _ => (hW i b).1) hne
  constructor
  · intro a
    exact div_nonneg (le_of_lt (hW i a).1) (le_of_lt hpos)
  · have hsum : ∑ a, all_weights W i a = 1 := by
      unfold all_weights
      rw [← Finset.sum_div]
      exact div_self (ne_of_gt hpos)
    rw [hsum]
    norm_num

/-- A concrete raw draw with entries strictly inside (0, 1). -/
def Wunif : Matrix (Fin 1) (Fin 2) ℚ := !![1/2, 1/3]

/-- Witness for C2 at a concrete raw draw. -/
theorem weight_ensemble_simplex_witness :
    (2 ≤ 2 ∧ (∀ (i : Fin 1) (a : Fin 2), 0 < Wunif i a ∧ Wunif i a < 1)) ∧
    ((∀ a, 0 ≤ all_weights Wunif 0 a) ∧
     |(∑ a, all_weights Wunif 0 a) - 1| ≤ 1 / 1000000000) :=
  ⟨⟨le_refl 2, fun i a => by
      fin_cases i <;> fin_cases a <;> constructor <;> norm_num [Wunif]⟩,
   weight_ensemble_simplex Wunif (le_refl 2)
     (fun i a => by fin_cases i <;> fin_cases a <;> constructor <;> norm_num [Wunif]) 0⟩


/-! ## Shape of the log-return table (C7, C6) -/

/-- The row-builder of `calculate_log_returns`, before `dropna`. -/
noncomputable def logRow {n k : ℕ} (p : Matrix (Fin n) (Fin k) ℚ) (t : Fin n)
    (a : Fin k) : FloatV ℝ :=
  flogF (fdivShift (p t a)
    (if h : 0 < (t : ℕ) then some (p ⟨(t : ℕ) - 1, by omega⟩ a) else none))

/-- `calculate_log_returns` is the filtered list of `logRow`s. -/
lemma calculate_log_returns_eq {n k : ℕ} (p : Matrix (Fin n) (Fin k) ℚ) :
    calculate_log_returns p =
      ((List.finRange n).map fun t => logRow p t).filter fun row => !(hasNanRow row) := rfl

/-- Row 0 of the pre-`dropna` table is entrywise NaN (no predecessor
price). -/
lemma logRow_zero {n k : ℕ} (p : Matrix (Fin (n + 1)) (Fin k) ℚ) (a : Fin k) :
    logRow p 0 a = .nan := by
  unfold logRow
  rw [dif_neg (by simp)]
  rfl

/-- Rows with a predecessor, under positive prices, hold the exact log
price ratio and no special value. -/
lemma logRow_succ {n k : ℕ} (p : Matrix (Fin (n + 1)) (Fin k) ℚ)
    (hpos : ∀ t a, 0 < p t a) (s : Fin n) (a : Fin k) :
    logRow p s.succ a =
      .fin (Real.log (((p s.succ a / p s.castSucc a : ℚ) : ℝ))) := by
  unfold logRow
  simp only [Fin.val_succ]
  rw [dif_pos (Nat.succ_pos (s : ℕ))]
  have hprev : (⟨(s : ℕ) + 1 - 1, by omega⟩ : Fin (n + 1)) = s.castSucc := by
    apply Fin.ext
    simp
  rw [hprev]
  simp only [fdivShift]
  rw [if_neg (ne_of_gt (hpos s.castSucc a))]
  simp only [flogF]
  have hr : 0 < p s.succ a / p s.castSucc a := div_pos (hpos _ _) (hpos _ _)
  rw [if_neg (not_lt.mpr hr.le), if_neg hr.ne.symm]

/-- Row 0 is caught by `dropna` whenever there is at least one column. -/
lemma hasNanRow_logRow_zero {n k : ℕ} (p : Matrix (Fin (n + 1)) (Fin k) ℚ)
    (hk : 1 ≤ k) : hasNanRow (logRow p 0) = true := by
  simp only [hasNanRow, decide_eq_true_eq]
  exact ⟨⟨0, by omega⟩, by rw [logRow_zero]; rfl⟩

/-- Rows with a predecessor are kept by `dropna` under positive
prices. -/
lemma hasNanRow_logRow_succ {n k : ℕ} (p : Matrix (Fin (n + 1)) (Fin k) ℚ)
    (hpos : ∀ t a, 0 < p t a) (s : Fin n) :
    hasNanRow (logRow p s.succ) = false := by
  simp only [hasNanRow, decide_eq_false_iff_not]
  rintro ⟨a, ha⟩
  rw [logRow_succ p hpos s a] at ha
  exact absurd ha (by simp [FloatV.isNan])

/-- C7.  For a price table with at least 2 dates and entirely positive
prices, the log-return table has exactly one row fewer than the price
table (the earliest date is dropped), the same columns in the same
order (each row is indexed by the same `Fin k`), and the entry at
surviving row `i`, asset `a`, is `ln(p[i+1][a] / p[i][a])`. -/
theorem log_returns_shape {n k : ℕ} (p : Matrix (Fin n) (Fin k) ℚ)
    (h2 : 2 ≤ n) (hk : 1 ≤ k) (hpos : ∀ t a, 0 < p t a) :
    (calculate_log_returns p).length = n - 1 ∧
    ∀ (i : ℕ) (hi : i < n - 1) (a : Fin k),
      ((calculate_log_returns p)[i]?.map fun row => row a) =
        some (.fin (Real.log (((p ⟨i + 1, by omega⟩ a / p ⟨i, by omega⟩ a : ℚ) : ℝ)))) := by
  obtain ⟨m, rfl⟩ : ∃ m, n = m + 1 := ⟨n - 1, by omega⟩
  have hfilter : calculate_log_returns p = (List.finRange m).map fun s => logRow p s.succ := by
    rw [calculate_log_returns_eq, List.finRange_succ_eq_map, List.map_cons]
    rw [List.filter_cons_of_neg (by simp [hasNanRow_logRow_zero p hk])]
    rw [List.map_map]
    show ((List.finRange m).map fun s => logRow p s.succ).filter
      (fun row => !(hasNanRow row)) = _
    apply List.filter_eq_self.mpr
    intro row hrow
    obtain ⟨s, _, rfl⟩ := List.mem_map.mp hrow
    simp [hasNanRow_logRow_succ p hpos s]
  constructor
  · rw [hfilter, List.length_map, List.length_finRange]
    omega
  · intro i hi a
    have him : i < m := by omega
    rw [hfilter, List.getElem?_map, List.getElem?_eq_getElem (by simpa using him)]
    simp only [List.getElem_finRange, Option.map_some', Option.some.injEq]
    rw [logRow_succ p hpos]
    congr 1


/-- A concrete all-positive 2-date price table. -/
def Ptest : Matrix (Fin 2) (Fin 2) ℚ := !![1, 2; 2, 1]

/-- Witness for C7 at a concrete positive price table. -/
theorem log_returns_shape_witness :
    (2 ≤ 2 ∧ 1 ≤ 2 ∧ (∀ (t : Fin 2) (a : Fin 2), 0 < Ptest t a)) ∧
    ((calculate_log_returns Ptest).length = 2 - 1 ∧
     ∀ (i : ℕ) (hi : i < 2 - 1) (a : Fin 2),
       ((calculate_log_returns Ptest)[i]?.map fun row => row a) =
         some (.fin (Real.log (((Ptest ⟨i + 1, by omega⟩ a / Ptest ⟨i, by omega⟩ a : ℚ) : ℝ))))) :=
  ⟨⟨le_refl 2, by norm_num, fun t a => by fin_cases t <;> fin_cases a <;> norm_num [Ptest]⟩,
   log_returns_shape Ptest (le_refl 2) (by norm_num)
     (fun t a => by fin_cases t <;> fin_cases a <;> norm_num [Ptest])⟩

/-- A 3-date price table whose first asset has a zero price at date 1
(`A = [1, 0, 1]`, `B = [1, 1, 1]`). -/
def Pzero : Matrix (Fin 3) (Fin 2) ℚ := !![1, 1; 0, 1; 1, 1]

/-- Date-1 row of the log returns of `Pzero`: `ln(0/1) = -inf`
survives because it is not NaN. -/
lemma Pzero_r1 : logRow Pzero 1 = fun a =>
    if a = 0 then FloatV.inf false else FloatV.fin 0 := by
  funext a
  fin_cases a <;>
    norm_num [logRow, fdivShift, flogF, Pzero, Real.log_one,
      Matrix.vecHead, Matrix.vecTail]

/-- Date-2 row of the log returns of `Pzero`: `ln(1/0) = +inf`
survives because it is not NaN. -/
lemma Pzero_r2 : logRow Pzero 2 = fun a =>
    if a = 0 then FloatV.inf true else FloatV.fin 0 := by
  funext a
  fin_cases a <;>
    norm_num [logRow, fdivShift, flogF, Pzero, Real.log_one,
      Matrix.vecHead, Matrix.vecTail]

/-- Counterexample for C6.  On a price table containing a zero price
the computation does not fail: it returns a 2-row table, and the
returned table contains `-inf` (from `ln 0`) and `+inf` (from a
division by the zero price) entries — infinities survive `dropna`. -/
theorem log_returns_inf_counterexample :
    (calculate_log_returns Pzero).length = 2 ∧
    ((calculate_log_returns Pzero)[0]?.map fun row => row 0) = some (.inf false) ∧
    ((calculate_log_returns Pzero)[1]?.map fun row => row 0) = some (.inf true) := by
  have hfR : List.finRange 3 = [0, 1, 2] := by decide
  have hlist : calculate_log_returns Pzero = [logRow Pzero 1, logRow Pzero 2] := by
    rw [calculate_log_returns_eq, hfR]
    simp only [List.map_cons, List.map_nil]
    rw [List.filter_cons_of_neg (by simp [hasNanRow_logRow_zero Pzero (by norm_num)])]
    rw [List.filter_cons_of_pos
      (by simp [hasNanRow, Pzero_r1, FloatV.isNan, Fin.exists_fin_two])]
    rw [List.filter_cons_of_pos
      (by simp [hasNanRow, Pzero_r2, FloatV.isNan, Fin.exists_fin_two])]
    rfl
  refine ⟨by rw [hlist]; rfl, ?_, ?_⟩ <;>
    simp [hlist, Pzero_r1, Pzero_r2]

/-- C6 amended.  The processor never raises an error and infinities
can survive (see the counterexample), but the NaN half of the claim
holds: no NaN entry survives `dropna` — every row of every log-return
table it returns is NaN-free. -/
theorem log_returns_no_nan {n k : ℕ} (p : Matrix (Fin n) (Fin k) ℚ) :
    ((calculate_log_returns p).all fun row => !(hasNanRow row)) = true := by
  rw [calculate_log_returns_eq, List.all_eq_true]
  intro row hrow
  exact (List.mem_filter.mp hrow).2


/-! ## Annualization (C8) and insufficient history (C9) -/

/-- C8.  The statistics step returns exactly the per-period column
mean multiplied by 252 and (given at least 2 rows) the per-period
`ddof = 1` sample covariance multiplied by 252 — the factor enters
linearly in the mean and exactly once (not squared) in the covariance.
Both are plain functions of the table: deterministic, no randomness. -/
theorem annualization_factor {n k : ℕ} (R : Matrix (Fin n) (Fin k) ℚ) (h2 : 2 ≤ n)
    (a b : Fin k) :
    mean_returns R a = 252 * ((∑ t, R t a) / (n : ℚ)) ∧
    cov_matrix R a b = .fin (252 *
      ((∑ t, (R t a - log_mean R a) * (R t b - log_mean R b)) / ((n : ℚ) - 1))) := by
  constructor
  · rw [mean_returns, log_mean, mul_comm]
  · rw [cov_matrix, if_neg (by omega), log_cov, mul_comm]

/-- Witness for C8 at the concrete test table. -/
theorem annualization_factor_witness :
    2 ≤ 2 ∧
    (mean_returns Rtest 0 = 252 * ((∑ t, Rtest t 0) / (2 : ℚ)) ∧
     cov_matrix Rtest 0 1 = .fin (252 *
       ((∑ t, (Rtest t 0 - log_mean Rtest 0) * (Rtest t 1 - log_mean Rtest 1)) /
         ((2 : ℚ) - 1)))) :=
  ⟨le_refl 2, annualization_factor Rtest (le_refl 2) 0 1⟩

/-- Float division by a NaN risk is NaN, whatever the numerator. -/
lemma sharpeDiv_nan_right (num : FloatV ℚ) : sharpeDiv num .nan = .nan := by
  cases num <;> rfl

/-- If every entry of a series is NaN, `idxmax` finds no candidate. -/
lemma idxmaxA_eq_none_of_all_nan {l : List (FloatV ℝ)} (h : ∀ v ∈ l, v.isNan = true) :
    idxmaxA l = none := by
  induction l with
  | nil => rfl
  | cons v rest ih =>
    have hrest := ih fun u hu => h u (List.mem_cons_of_mem v hu)
    rw [idxmaxA_cons, hrest]
    show (if v.isNan then none else some (0, v)) = none
    rw [if_pos (h v (List.mem_cons_self v rest))]

/-- A single-row (hence covariance-free) log-return table. -/
def Rone : Matrix (Fin 1) (Fin 2) ℚ := !![1/10, 1/5]

/-- Counterexample for C9.  On a 1-row table the engine does not fail:
the covariance entries are NaN, yet a full record list is still
produced (here one record, with NaN Sharpe ratio). -/
theorem insufficient_history_counterexample :
    cov_matrix Rone 0 0 = .nan ∧
    (perform_monte_carlo_simulation Rone Wtest 0).1.length = 1 ∧
    ((perform_monte_carlo_simulation Rone Wtest 0).1.map fun r => r.sharpe) = [.nan] := by
  refine ⟨rfl, rfl, ?_⟩
  rfl

/-- C9 amended.  With fewer than 2 rows no `InsufficientHistory`
failure occurs: the pandas sample covariance is entrywise NaN, every
produced record has NaN risk and NaN Sharpe ratio, and the selection
step consequently returns no optimum. -/
theorem insufficient_history_nan {n k N : ℕ} (R : Matrix (Fin n) (Fin k) ℚ)
    (hn : n < 2) (W : Matrix (Fin N) (Fin k) ℚ) (rf : ℚ) :
    (∀ a b, cov_matrix R a b = .nan) ∧
    (∀ r ∈ (perform_monte_carlo_simulation R W rf).1, r.risk = .nan ∧ r.sharpe = .nan) ∧
    (perform_monte_carlo_simulation R W rf).2 = none := by
  have hrec : ∀ (i : Fin N), (evalRecordAt R rf (all_weights W i)).risk = .nan ∧
      (evalRecordAt R rf (all_weights W i)).sharpe = .nan := by
    intro i
    constructor
    · simp only [evalRecordAt, if_pos hn]
      rfl
    · simp only [evalRecordAt, if_pos hn]
      exact sharpeDiv_nan_right _
  refine ⟨fun a b => by rw [cov_matrix, if_pos hn], ?_, ?_⟩
  · intro r hr
    rw [pmcs_fst] at hr
    obtain ⟨i, _, rfl⟩ := List.mem_map.mp hr
    exact hrec i
  · rw [pmcs_snd]
    rw [idxmaxA_eq_none_of_all_nan]
    · rfl
    · intro v hv
      obtain ⟨r, hr, rfl⟩ := List.mem_map.mp hv
      rw [pmcs_fst] at hr
      obtain ⟨i, _, rfl⟩ := List.mem_map.mp hr
      rw [(hrec i).2]
      rfl

/-- Witness for the amended C9 at the concrete 1-row table. -/
theorem insufficient_history_nan_witness :
    1 < 2 ∧
    ((∀ (a b : Fin 2), cov_matrix Rone a b = .nan) ∧
     (∀ r ∈ (perform_monte_carlo_simulation Rone Wtest 0).1,
       r.risk = .nan ∧ r.sharpe = .nan) ∧
     (perform_monte_carlo_simulation Rone Wtest 0).2 = none) :=
  ⟨by norm_num, insufficient_history_nan Rone (by norm_num) Wtest 0⟩


/-! ## Degenerate-risk handling (C4) -/

/-- A 2-row log-return table with constant columns: every portfolio
has zero variance, hence zero risk. -/
def Rflat : Matrix (Fin 2) (Fin 2) ℚ := !![1/10, 1/10; 1/10, 1/10]

/-- Over the constant table every portfolio variance vanishes. -/
lemma Rflat_variance : port_variance Rflat ![1/2, 1/2] = 0 := by
  simp [port_variance, log_cov, log_mean, Rflat, Fin.sum_univ_two]

/-- Over the constant table the annualized portfolio return is
`252 * 1/10 = 126/5`. -/
lemma Rflat_return : port_return Rflat ![1/2, 1/2] = 126/5 := by
  simp [port_return, mean_returns, log_mean, Rflat, Fin.sum_univ_two]
  norm_num

/-- The single evaluated record of the degenerate ensemble: zero
risk and `+inf` Sharpe ratio. -/
lemma Rflat_rec : evalRecordAt Rflat 0 (all_weights Wtest 0) =
    ⟨![1/2, 1/2], .fin (126/5), .fin 0, .inf true⟩ := by
  simp only [evalRecordAt, Rtest_weights]
  rw [Rflat_variance, Rflat_return]
  norm_num [fsubQ, sharpeDiv, fsqrtF, Real.sqrt_zero]

/-- Counterexample for C4.  On the constant table the unique record is
degenerate (risk `0`), its Sharpe ratio is `+inf`, and the selection
step returns it as the optimum instead of excluding it or failing. -/
theorem degenerate_selected_counterexample :
    ((perform_monte_carlo_simulation Rflat Wtest 0).2.map fun r => r.sharpe) =
      some (.inf true) ∧
    ((perform_monte_carlo_simulation Rflat Wtest 0).2.map fun r => r.risk) =
      some (.fin 0) := by
  have hrecs : (perform_monte_carlo_simulation Rflat Wtest 0).1 =
      [⟨![1/2, 1/2], .fin (126/5), .fin 0, .inf true⟩] := by
    rw [pmcs_fst, List.finRange_succ_eq_map, List.finRange_zero]
    simp only [List.map_cons, List.map_nil]
    rw [Rflat_rec]
  have hopt : (perform_monte_carlo_simulation Rflat Wtest 0).2 =
      some ⟨![1/2, 1/2], .fin (126/5), .fin 0, .inf true⟩ := by
    rw [pmcs_snd, hrecs]
    rfl
  rw [hopt]
  exact ⟨rfl, rfl⟩

/-- C4 amended.  Only NaN-Sharpe records are skipped by the arg-max
scan: a returned optimum never has a NaN Sharpe ratio, and if every
record's Sharpe ratio is NaN the selection returns no candidate.
Zero-risk records with nonzero excess return, however, receive an
infinite Sharpe ratio, participate in the scan, and can be returned
as the optimum (see the counterexample); no `NoValidCandidate` error
exists. -/
theorem degenerate_handling {n k N : ℕ} (R : Matrix (Fin n) (Fin k) ℚ)
    (W : Matrix (Fin N) (Fin k) ℚ) (rf : ℚ) :
    (∀ r, (perform_monte_carlo_simulation R W rf).2 = some r → r.sharpe.isNan = false) ∧
    (((perform_monte_carlo_simulation R W rf).1.all fun r => r.sharpe.isNan) = true →
      (perform_monte_carlo_simulation R W rf).2 = none) := by
  constructor
  · intro r hr
    rw [pmcs_snd] at hr
    cases hidx : idxmaxA ((perform_monte_carlo_simulation R W rf).1.map SimRecord.sharpe) with
    | none =>
      rw [hidx] at hr
      exact absurd hr (by simp)
    | some jb =>
      rw [hidx] at hr
      obtain ⟨j, b⟩ := jb
      obtain ⟨hget, hnn, _, _⟩ := (idxmaxA_spec _).2 j b hidx
      rw [List.getElem?_map] at hget
      have hb : r.sharpe = b := by
        rw [Option.some_bind] at hr
        rw [hr] at hget
        simpa using hget
      rw [hb]
      exact hnn
  · intro hall
    rw [pmcs_snd, idxmaxA_eq_none_of_all_nan, Option.none_bind]
    intro v hv
    obtain ⟨r, hr, rfl⟩ := List.mem_map.mp hv
    exact (List.all_eq_true.mp hall) r hr

/-- Witness for the amended C4 at the all-NaN ensemble. -/
theorem degenerate_handling_witness :
    (((perform_monte_carlo_simulation Rone Wtest 0).1.all fun r => r.sharpe.isNan) = true) ∧
    (perform_monte_carlo_simulation Rone Wtest 0).2 = none :=
  ⟨by rfl, (degenerate_handling Rone Wtest 0).2 (by rfl)⟩


end PortfolioOpt
